import Mathlib

/-
Verification development for the wit-docs-inject tool (two Rust entry points:
`src/main.rs`, the injector, and `src/bin/wit-docs-view.rs`, the viewer).

Modelling conventions:
- Text is modelled as `List Char` (`Chars`); Rust's `&str` operations
  (`trim`, `lines`, `split_whitespace`, `find`, slicing) are translated to
  structurally recursive functions on `Chars` so that all definitions are
  executable and kernel-evaluable.
- Binary module bytes are modelled as `List Nat`; text-to-byte conversion uses
  the character's unicode scalar value (`Char.toNat`), an abstraction of UTF-8
  adequate for the ASCII section names and payloads involved.
- `serde_json::Value` is modelled by the inductive `Json`; JSON objects are
  association lists in stored order.
-/

/-- Characters of a piece of text. -/
abbrev Chars := List Char

/-- Whitespace predicate: models Rust's `char::is_whitespace` on the ASCII
range (the only range the claims exercise). -/
def isWs (c : Char) : Bool := c = ' ' || c = '\t' || c = '\n' || c = '\r'

/-- Split a character list at every character satisfying `p` (separators are
dropped; empty segments are kept, as in Rust's `str::split`). -/
def splitOnP (p : Char → Bool) : Chars → List Chars
  | [] => [[]]
  | c :: rest =>
    if p c then [] :: splitOnP p rest
    else
      match splitOnP p rest with
      | [] => [[c]]
      | l :: ls => (c :: l) :: ls

/-- Drop one trailing carriage return, as Rust's `str::lines` does on each
produced line. -/
def stripCR (l : Chars) : Chars := if l.getLast? = some '\r' then l.dropLast else l

/-- Model of Rust's `str::lines`: split on `'\n'`, do not produce a final empty
line for a trailing newline, and strip a trailing `'\r'` from each line. -/
def rustLines (s : Chars) : List Chars :=
  if s = [] then []
  else
    let ps := splitOnP (· = '\n') s
    let ps := if ps.getLast? = some [] then ps.dropLast else ps
    ps.map stripCR

/-- Model of Rust's `str::trim` (both ends). -/
def trimChars (s : Chars) : Chars :=
  ((s.dropWhile isWs).reverse.dropWhile isWs).reverse

/-- Model of Rust's `str::split_whitespace`: split on whitespace and drop the
empty segments. -/
def splitWs (s : Chars) : List Chars := (splitOnP isWs s).filter (· ≠ [])

/-- Model of `serde_json::Value`. Objects keep their fields as an association
list in stored order. -/
inductive Json where
  | null
  | bool (b : Bool)
  | num (n : Int)
  | str (s : Chars)
  | arr (elems : List Json)
  | obj (fields : List (Chars × Json))

/-- First field of the association list with the given key, as
`serde_json::Map::get`. -/
def lookupField : List (Chars × Json) → Chars → Option Json
  | [], _ => none
  | (k, v) :: fs, key => if k = key then some v else lookupField fs key

/-- Model of `Value::get` on a string key: field lookup on objects, `None`
otherwise. -/
def Json.get : Json → Chars → Option Json
  | .obj fs, key => lookupField fs key
  | _, _ => none

/-- Model of `Value::as_object`. -/
def Json.asObj : Json → Option (List (Chars × Json))
  | .obj fs => some fs
  | _ => none

/-- Model of `Value::as_str`. -/
def Json.asStr : Json → Option Chars
  | .str s => some s
  | _ => none

/-- Key "worlds". -/
def kWorlds : Chars := "worlds".data

/-- Key "docs". -/
def kDocs : Chars := "docs".data

/-- Key "func_exports". -/
def kFuncExports : Chars := "func_exports".data

/-- Key "functions" (the backward-compatible alias). -/
def kFunctions : Chars := "functions".data

/-- Placeholder world name used when the declaration line has fewer than two
tokens. -/
def kUnknown : Chars := "unknown".data

/-- The literal "world " keyword prefix. -/
def kWorldKw : Chars := "world ".data

/-- The literal "export " keyword prefix. -/
def kExportKw : Chars := "export ".data

/-- The literal "import " keyword prefix. -/
def kImportKw : Chars := "import ".data

/-- The documentation comment marker "/// ". -/
def kDocMark : Chars := "/// ".data

/-- A single closing brace, the body terminator line. -/
def kCloseBrace : Chars := ['}']

/-- Translation of `get_world_docs` (wit-docs-view.rs:328): exact world lookup
first; if it fails and there is exactly one world, that world is used. -/
def get_world_docs (docs : Json) (world_name : Chars) : Option Chars :=
  match (docs.get kWorlds).bind Json.asObj with
  | none => none
  | some worlds =>
    match lookupField worlds world_name with
    | some world => (world.get kDocs).bind Json.asStr
    | none =>
      if worlds.length = 1 then
        match worlds.head? with
        | some (_, world_data) => (world_data.get kDocs).bind Json.asStr
        | none => none
      else none

/-- Translation of `get_function_docs_from_world` (wit-docs-view.rs:362):
`func_exports` first, falling back to the `functions` alias only when the
`func_exports` key is absent. -/
def get_function_docs_from_world (world : Json) (func_name : Chars) : Option Chars :=
  (match world.get kFuncExports with
   | some v => some v
   | none => world.get kFunctions).bind Json.asObj
    |>.bind (fun functions => lookupField functions func_name)
    |>.bind (fun f => f.get kDocs)
    |>.bind Json.asStr

/-- Translation of `get_function_docs` (wit-docs-view.rs:345): exact world
lookup first; single-world fallback otherwise. -/
def get_function_docs (docs : Json) (world_name func_name : Chars) : Option Chars :=
  match (docs.get kWorlds).bind Json.asObj with
  | none => none
  | some worlds =>
    match lookupField worlds world_name with
    | some world => get_function_docs_from_world world func_name
    | none =>
      if worlds.length = 1 then
        match worlds.head? with
        | some (_, world_data) => get_function_docs_from_world world_data func_name
        | none => none
      else none

/-- Translation of `extract_world_name` (wit-docs-view.rs:301): second
whitespace-separated token, or "unknown". -/
def extract_world_name (line : Chars) : Chars :=
  match splitWs line with
  | _ :: name :: _ => name
  | _ => kUnknown

/-- Translation of `extract_function_name` (wit-docs-view.rs:311): the second
whitespace-separated token before the first colon, if any. -/
def extract_function_name (line : Chars) : Option Chars :=
  if line.contains ':' then
    match splitWs (line.takeWhile (· ≠ ':')) with
    | _ :: name :: _ => some name
    | _ => none
  else none

/-- Translation of `get_indent` (wit-docs-view.rs:323): the whitespace prefix
that `trim_start` would remove. -/
def get_indent (line : Chars) : Chars := line.takeWhile isWs

/-- Documentation comment lines produced for one docs string: one "/// " line
per line of the docs text, each carrying the given indentation. -/
def docCommentLines (indent : Chars) (docsText : Chars) : List Chars :=
  (rustLines docsText).map (fun dl => indent ++ kDocMark ++ dl)

/-- Translation of the scanning loop of `inject_docs_into_wit`
(wit-docs-view.rs:241) as a two-state line scanner. The state is `none` at
top level and `some w` inside the body of a world whose extracted name is
`w`; the body state ends with the first line whose trimmed form is `"}"`. -/
def injectGo (docs : Json) : Option Chars → List Chars → List Chars
  | _, [] => []
  | none, line :: rest =>
    let t := trimChars line
    if kWorldKw.isPrefixOf t then
      let w := extract_world_name t
      (match get_world_docs docs w with
       | some wd => docCommentLines [] wd
       | none => []) ++ line :: injectGo docs (some w) rest
    else
      line :: injectGo docs none rest
  | some w, line :: rest =>
    let t := trimChars line
    let dls :=
      if kExportKw.isPrefixOf t || kImportKw.isPrefixOf t then
        match extract_function_name t with
        | some fn =>
          match get_function_docs docs w fn with
          | some fd => docCommentLines (get_indent line) fd
          | none => []
        | none => []
      else []
    dls ++ line :: injectGo docs (if t = kCloseBrace then none else some w) rest

/-- Translation of `inject_docs_into_wit` (wit-docs-view.rs:241): scan the
lines and emit every produced line followed by a newline. -/
def inject_docs_into_wit (wit_text : Chars) (docs : Json) : Chars :=
  ((injectGo docs none (rustLines wit_text)).map (fun l => l ++ ['\n'])).flatten

/-- Key "func_imports". -/
def kFuncImports : Chars := "func_imports".data

/-- Model of the documented-function record of the spec's DocTree (§3): only
the optional `docs` string is consumed. -/
structure FuncDocs where
  docs : Option Chars
deriving DecidableEq

/-- Model of the per-world record of the spec's DocTree (§3). -/
structure WorldDocs where
  docs : Option Chars
  func_exports : List (Chars × FuncDocs)
  func_imports : List (Chars × FuncDocs)
deriving DecidableEq

/-- Model of the spec's DocTree (§3): a mapping from world name to WorldDocs. -/
structure DocTree where
  worlds : List (Chars × WorldDocs)
deriving DecidableEq

/-- JSON value of a FuncDocs: the `docs` field is emitted only when present. -/
def FuncDocs.toJson (fd : FuncDocs) : Json :=
  .obj (match fd.docs with | some d => [(kDocs, .str d)] | none => [])

/-- JSON object mapping function names to their FuncDocs values. -/
def funcsToJson (fs : List (Chars × FuncDocs)) : Json :=
  .obj (fs.map (fun p => (p.1, p.2.toJson)))

/-- JSON value of a WorldDocs. -/
def WorldDocs.toJson (w : WorldDocs) : Json :=
  .obj ((match w.docs with | some d => [(kDocs, .str d)] | none => []) ++
    [(kFuncExports, funcsToJson w.func_exports), (kFuncImports, funcsToJson w.func_imports)])

/-- JSON value of a DocTree: one `worlds` object. -/
def DocTree.toJson (t : DocTree) : Json :=
  .obj [(kWorlds, .obj (t.worlds.map (fun p => (p.1, p.2.toJson))))]

/-- JSON string escaping used by the modelled serializer: quote and backslash
are escaped, every other character is emitted literally. -/
def escapeChar (c : Char) : Chars := if c = '"' || c = '\\' then ['\\', c] else [c]

/-- Serialized JSON string literal. -/
def serStr (s : Chars) : Chars := '"' :: (s.map escapeChar).flatten ++ ['"']

/-- Serialized members of a JSON object whose values are already serialized. -/
def serMembers : List (Chars × Chars) → Chars
  | [] => []
  | [(k, v)] => serStr k ++ ':' :: v
  | (k, v) :: fs => serStr k ++ ':' :: v ++ ',' :: serMembers fs

/-- Serialized JSON object (compact form, as `serde_json::to_vec`). -/
def serObj (fs : List (Chars × Chars)) : Chars := '{' :: serMembers fs ++ ['}']

/-- Modelled from the spec: the UTF-8 JSON serialization of a FuncDocs, as
produced by the external `wit_parser`/`serde_json` crates. -/
def serFunc (fd : FuncDocs) : Chars :=
  serObj (match fd.docs with | some d => [(kDocs, serStr d)] | none => [])

/-- Serialized JSON object of a function map. -/
def serFuncs (fs : List (Chars × FuncDocs)) : Chars :=
  serObj (fs.map (fun p => (p.1, serFunc p.2)))

/-- Serialized JSON object of a WorldDocs. -/
def serWorld (w : WorldDocs) : Chars :=
  serObj ((match w.docs with | some d => [(kDocs, serStr d)] | none => []) ++
    [(kFuncExports, serFuncs w.func_exports), (kFuncImports, serFuncs w.func_imports)])

/-- Modelled from the spec: the UTF-8 JSON serialization of a DocTree (§3),
the payload text that follows the version byte. -/
def serDocTree (t : DocTree) : Chars :=
  serObj [(kWorlds, serObj (t.worlds.map (fun p => (p.1, serWorld p.2))))]

/-- Parse the body of a JSON string literal after the opening quote, up to the
closing quote; a backslash escapes the following character. -/
def parseStrBody : Chars → Option (Chars × Chars)
  | [] => none
  | c :: rest =>
    if c = '\\' then
      match rest with
      | [] => none
      | c2 :: rest2 => (parseStrBody rest2).map (fun p => (c2 :: p.1, p.2))
    else if c = '"' then some ([], rest)
    else (parseStrBody rest).map (fun p => (c :: p.1, p.2))

/-- Numeric value of a list of decimal digits. -/
def digitsToNat (ds : Chars) : Nat := ds.foldl (fun a c => a * 10 + (c.toNat - '0'.toNat)) 0

/-- Parse a JSON number (integer form; the payloads at issue carry none). -/
def parseNum (s : Chars) : Option (Json × Chars) :=
  match s with
  | '-' :: rest =>
    let ds := rest.takeWhile (·.isDigit)
    if ds = [] then none
    else some (.num (-(Int.ofNat (digitsToNat ds))), rest.dropWhile (·.isDigit))
  | _ =>
    let ds := s.takeWhile (·.isDigit)
    if ds = [] then none
    else some (.num (Int.ofNat (digitsToNat ds)), s.dropWhile (·.isDigit))

/-- Fuel-indexed recursive-descent parsing of compact JSON, the model of
`serde_json::from_slice`. The triple holds the value parser, the object
member-list parser and the array element-list parser at each fuel level;
the member and element parsers consume the closing brace or bracket. -/
def parseTrio : Nat →
    (Chars → Option (Json × Chars))
    × (Chars → Option (List (Chars × Json) × Chars))
    × (Chars → Option (List Json × Chars))
  | 0 => (fun _ => none, fun _ => none, fun _ => none)
  | fuel+1 =>
    ( fun s =>
        match s with
        | '"' :: rest => (parseStrBody rest).map (fun p => (.str p.1, p.2))
        | '{' :: '}' :: rest => some (.obj [], rest)
        | '{' :: rest => ((parseTrio fuel).2.1 rest).map (fun p => (.obj p.1, p.2))
        | '[' :: ']' :: rest => some (.arr [], rest)
        | '[' :: rest => ((parseTrio fuel).2.2 rest).map (fun p => (.arr p.1, p.2))
        | 'n' :: 'u' :: 'l' :: 'l' :: rest => some (.null, rest)
        | 't' :: 'r' :: 'u' :: 'e' :: rest => some (.bool true, rest)
        | 'f' :: 'a' :: 'l' :: 's' :: 'e' :: rest => some (.bool false, rest)
        | other => parseNum other,
      fun s =>
        match s with
        | '"' :: rest =>
          match parseStrBody rest with
          | none => none
          | some (key, s1) =>
            match s1 with
            | ':' :: s2 =>
              match (parseTrio fuel).1 s2 with
              | none => none
              | some (v, s3) =>
                match s3 with
                | ',' :: s4 => ((parseTrio fuel).2.1 s4).map (fun p => ((key, v) :: p.1, p.2))
                | '}' :: s4 => some ([(key, v)], s4)
                | _ => none
            | _ => none
        | _ => none,
      fun s =>
        match (parseTrio fuel).1 s with
        | none => none
        | some (v, s1) =>
          match s1 with
          | ',' :: s2 => ((parseTrio fuel).2.2 s2).map (fun p => (v :: p.1, p.2))
          | ']' :: s2 => some ([v], s2)
          | _ => none )

/-- The JSON value parser at a given fuel. -/
def parseV (f : Nat) (s : Chars) : Option (Json × Chars) := (parseTrio f).1 s

/-- The JSON object member-list parser at a given fuel. -/
def parseMembers (f : Nat) (s : Chars) : Option (List (Chars × Json) × Chars) :=
  (parseTrio f).2.1 s

/-- The JSON array element-list parser at a given fuel. -/
def parseElems (f : Nat) (s : Chars) : Option (List Json × Chars) := (parseTrio f).2.2 s

/-- Model of `serde_json::from_slice` on text: the whole input must be one
JSON value. -/
def jsonDecode (s : Chars) : Option Json :=
  match parseV (s.length + 1) s with
  | some (j, []) => some j
  | _ => none

/-- Read a FuncDocs back from its JSON value; extra fields are tolerated. -/
def jsonToFunc : Json → Option FuncDocs
  | .obj fs => some ⟨(lookupField fs kDocs).bind Json.asStr⟩
  | _ => none

/-- Convert every value of an association list, failing if any value fails. -/
def mapFieldsM {α : Type} (f : Json → Option α) : List (Chars × Json) → Option (List (Chars × α))
  | [] => some []
  | (k, v) :: fs => do
      let a ← f v
      let rest ← mapFieldsM f fs
      pure ((k, a) :: rest)

/-- Read a function map from an optional JSON field value: an absent field is
an empty map. -/
def fieldAsFuncs (v : Option Json) : Option (List (Chars × FuncDocs)) :=
  match v with
  | none => some []
  | some j => j.asObj.bind (mapFieldsM jsonToFunc)

/-- Read a WorldDocs back from its JSON value, accepting the `functions`
alias for `func_exports` when the latter key is absent (spec §3). -/
def jsonToWorld (j : Json) : Option WorldDocs :=
  match j with
  | .obj fs => do
    let exps ← fieldAsFuncs (match lookupField fs kFuncExports with
      | some v => some v
      | none => lookupField fs kFunctions)
    let imps ← fieldAsFuncs (lookupField fs kFuncImports)
    pure ⟨(lookupField fs kDocs).bind Json.asStr, exps, imps⟩
  | _ => none

/-- Read a DocTree back from its JSON value (spec §3 schema). -/
def jsonToDocTree (j : Json) : Option DocTree := do
  let worldsJ ← (j.get kWorlds).bind Json.asObj
  let ws ← mapFieldsM jsonToWorld worldsJ
  pure ⟨ws⟩

/-- Fuel-indexed minimal LEB128 encoding; the fuel only needs to dominate the
number being encoded. -/
def lebEncF : Nat → Nat → List Nat
  | 0, n => [n]
  | fuel+1, n => if n < 128 then [n] else (n % 128 + 128) :: lebEncF fuel (n / 128)

/-- Minimal LEB128 encoding of a natural number, the integer encoding of the
binary module format. -/
def lebEnc (n : Nat) : List Nat := lebEncF n n

/-- LEB128 decoding; only the minimal form and byte values below 256 are
accepted. -/
def decodeLeb : List Nat → Option (Nat × List Nat)
  | [] => none
  | b :: rest =>
    if b < 128 then some (b, rest)
    else if b < 256 then
      match decodeLeb rest with
      | some (n, r) => if n = 0 then none else some (n * 128 + (b - 128), r)
      | none => none
    else none

/-- A section of the binary module: either a named custom section or an
opaque section with a nonzero id byte. -/
inductive Sec where
  | custom (name : List Nat) (data : List Nat)
  | other (id : Nat) (data : List Nat)
deriving DecidableEq

/-- Byte encoding of one section: id byte, LEB size, then the contents; a
custom section's contents are the LEB-prefixed name followed by the data. -/
def encodeSec : Sec → List Nat
  | .custom name data =>
    let content := lebEnc name.length ++ name ++ data
    0 :: lebEnc content.length ++ content
  | .other id data => id :: lebEnc data.length ++ data

/-- Structural well-formedness of a section value: opaque sections do not use
the custom-section id. -/
def secWF : Sec → Bool
  | .custom _ _ => true
  | .other id _ => id != 0

/-- Byte encoding of a section sequence. -/
def encodeSecs : List Sec → List Nat
  | [] => []
  | s :: ss => encodeSec s ++ encodeSecs ss

/-- Fuel-indexed parser for a section sequence, the model of `wasmparser`'s
section iteration. -/
def parseSecs : Nat → List Nat → Option (List Sec)
  | _, [] => some []
  | 0, _ :: _ => none
  | fuel+1, id :: rest =>
    match decodeLeb rest with
    | none => none
    | some (size, r1) =>
      if size ≤ r1.length then
        let content := r1.take size
        let r2 := r1.drop size
        if id = 0 then
          match decodeLeb content with
          | none => none
          | some (nlen, c1) =>
            if nlen ≤ c1.length then
              (parseSecs fuel r2).map (fun tl => Sec.custom (c1.take nlen) (c1.drop nlen) :: tl)
            else none
        else
          (parseSecs fuel r2).map (fun tl => Sec.other id content :: tl)
      else none

/-- The fixed component preamble: magic, version and layer bytes. -/
def moduleHeader : List Nat := [0, 97, 115, 109, 13, 0, 1, 0]

/-- Byte encoding of a whole module. -/
def encodeModule (ss : List Sec) : List Nat := moduleHeader ++ encodeSecs ss

/-- Structural parse of a whole module. -/
def parseModule (bs : List Nat) : Option (List Sec) :=
  if moduleHeader.isPrefixOf bs then parseSecs bs.length (bs.drop moduleHeader.length)
  else none

/-- Byte form of the managed section name "package-docs"
(`PackageMetadata::SECTION_NAME`). -/
def pdName : List Nat := "package-docs".data.map Char.toNat

/-- Modelled from the spec: `PackageMetadata::encode` of the external
`wit_parser` crate — one version byte (0) followed by the UTF-8 JSON
serialization of the tree (§3, section payload). -/
def metaEncode (t : DocTree) : List Nat := 0 :: (serDocTree t).map Char.toNat

/-- Modelled from the spec (§4.1): `SectionCodec.decode` — a payload of
length at most one is no payload; otherwise the version byte is discarded
and the remainder is parsed as the JSON DocTree schema. -/
def sectionDecode (bytes : List Nat) : Option DocTree :=
  if bytes.length ≤ 1 then none
  else (jsonDecode ((bytes.drop 1).map Char.ofNat)).bind jsonToDocTree

/-- Translation of the section scan of `extract_package_docs`
(wit-docs-view.rs:54-75) over parsed sections: a "package-docs" custom
section whose payload exceeds one byte is decoded (a failing JSON parse is
an error); any other section, including a "package-docs" section with a
short payload, lets the scan continue. -/
def extractFromSecs : List Sec → Except (List Char) (Option Json)
  | [] => .ok none
  | .custom name data :: rest =>
    if name = pdName then
      if data.length > 1 then
        match jsonDecode ((data.drop 1).map Char.ofNat) with
        | some j => .ok (some j)
        | none => .error ("Failed to parse package-docs JSON".data)
      else extractFromSecs rest
    else extractFromSecs rest
  | .other _ _ :: rest => extractFromSecs rest

/-- Translation of `extract_package_docs` (wit-docs-view.rs:54): parse the
module bytes, then scan the sections in stored order. -/
def extract_package_docs (bytes : List Nat) : Except (List Char) (Option Json) :=
  match parseModule bytes with
  | none => .error ("Failed to parse WebAssembly".data)
  | some secs => extractFromSecs secs

/-- Translation of the reencode-and-append step of the injector
(main.rs:45-63), with the external `RoundtripReencoder` modelled from the
spec (§4.2): re-emit every parsed section in its original order and append
one new custom section at the end. -/
def rewriteBytes (bytes : List Nat) (name payload : List Nat) : Option (List Nat) :=
  (parseModule bytes).map (fun ss => encodeModule (ss ++ [.custom name payload]))

/-- Join a list of segments with a single separator character, the inverse of
splitting on that character. -/
def joinSep (c : Char) : List Chars → Chars
  | [] => []
  | [l] => l
  | l :: ls => l ++ c :: joinSep c ls

/-- Rust `Path::file_stem`/`Path::extension` on a file name: split at the
last dot, except that a name whose only dot is a leading dot has no
extension. -/
def stemExt (f : Chars) : Chars × Option Chars :=
  let parts := splitOnP (· = '.') f
  if parts.length ≤ 1 then (f, none)
  else if parts.head? = some [] ∧ parts.length = 2 then (f, none)
  else (joinSep '.' parts.dropLast, parts.getLast?)

/-- Rust `file_stem().unwrap_or_default()` on a file name. -/
def fileStem (f : Chars) : Chars := (stemExt f).1

/-- Rust `extension()` on a file name. -/
def fileExt (f : Chars) : Option Chars := (stemExt f).2

/-- Translation of the derived-output-path computation of the injector
(main.rs:70-79), modelled on the file-name component (the parent directory
is reused unchanged by the code on every branch): set the extension to
"wasm" when there is none, then place `stem + ".docs.wasm"` next to the
input, or `stem + ".docs.injected.wasm"` when that equals the input name. -/
def derivedOutName (file : Chars) : Chars :=
  let ext := (fileExt file).getD []
  let p := if ext = [] then fileStem file ++ '.' :: "wasm".data else file
  let stem := fileStem p
  let out := stem ++ ".docs.wasm".data
  if out = file then stem ++ ".docs.injected.wasm".data else out

/-- A section that the extraction scan would commit to: a "package-docs"
custom section whose payload is longer than the version byte. -/
def isLongPD : Sec → Bool
  | .custom name data => name = pdName && data.length > 1
  | .other _ _ => false

/-- A documentation comment line: leading whitespace followed by the "/// "
marker and a payload. -/
def isDocCommentLine (l : Chars) : Prop :=
  ∃ ind s, (∀ c ∈ ind, isWs c = true) ∧ l = ind ++ kDocMark ++ s

/-- A one-world tree carrying the docs string "A.". -/
def cxTreeA : DocTree := ⟨[("w1".data, ⟨some ("A.".data), [], []⟩)]⟩

/-- A one-world tree carrying the docs string "B.". -/
def cxTreeB : DocTree := ⟨[("w1".data, ⟨some ("B.".data), [], []⟩)]⟩

/-- A module with one opaque section and no "package-docs" section. -/
def cxMod1 : List Nat := encodeModule [.other 7 [1, 2]]

/-- A module that already carries a "package-docs" section encoding cxTreeB. -/
def cxModPD : List Nat := encodeModule [.custom pdName (metaEncode cxTreeB)]

/-- A module with a short (one-byte) "package-docs" section followed by a
full one encoding cxTreeB. -/
def cxModDup : List Nat :=
  encodeModule [.custom pdName [0], .custom pdName (metaEncode cxTreeB)]

/-- The world value of the C3 scenario tree: docs plus one exported
function "foo". -/
def c3world : Json :=
  .obj [(kDocs, .str ("W1 docs.".data)),
    (kFuncExports, .obj [("foo".data, .obj [(kDocs, .str ("Runs foo.".data))])])]

/-- The C3 scenario documentation value: exactly one world named "w1". -/
def c3docs : Json := .obj [(kWorlds, .obj [("w1".data, c3world)])]

/-- The C3 scenario rendering: a world declared under a different name. -/
def c3text : Chars := "world other \x7b\n  export foo: func();\n\x7d".data

/-- The annotated output expected for the C3 scenario. -/
def c3expected : Chars :=
  "/// W1 docs.\nworld other \x7b\n  /// Runs foo.\n  export foo: func();\n\x7d\n".data

/-- A two-world documentation value for the C4 scenario. -/
def c4docs : Json :=
  .obj [(kWorlds, .obj [("a".data, .obj []), ("b".data, .obj [])])]

/-- The C4 rendering: a world named unlike either world of the tree. -/
def c4text : Chars := "world other \x7b\n  export foo: func();\n\x7d".data

/-- Stated for comparison with the code, following the claim's words: the
derived output path inserts the fixed suffix ".docs" before the original
extension (with the ".wasm" default when there is none). -/
def specInsertDocs (file : Chars) : Chars :=
  match fileExt file with
  | some e => fileStem file ++ ".docs.".data ++ e
  | none => file ++ ".docs.wasm".data

theorem lebEncF_congr : ∀ (fuel fuel' n : Nat), n ≤ fuel → n ≤ fuel' →
    lebEncF fuel n = lebEncF fuel' n := by
  intro fuel
  induction fuel with
  | zero =>
    intro fuel' n h _
    interval_cases n
    cases fuel' <;> simp [lebEncF]
  | succ f ih =>
    intro fuel' n h h'
    cases fuel' with
    | zero =>
      interval_cases n
      simp [lebEncF]
    | succ f' =>
      simp only [lebEncF]
      by_cases hn : n < 128
      · simp [hn]
      · have hd : n / 128 < n := Nat.div_lt_self (by omega) (by omega)
        simp only [hn, if_false]
        rw [ih f' (n / 128) (by omega) (by omega)]

theorem lebEnc_unfold (n : Nat) :
    lebEnc n = if n < 128 then [n] else (n % 128 + 128) :: lebEnc (n / 128) := by
  unfold lebEnc
  by_cases hn : n < 128
  · cases n with
    | zero => simp [lebEncF, hn]
    | succ m => simp [lebEncF, hn]
  · have h1 : 1 ≤ n := by omega
    cases n with
    | zero => omega
    | succ m =>
      simp only [lebEncF, hn, if_false]
      have hd : (m + 1) / 128 ≤ m := by
        have : (m + 1) / 128 < m + 1 := Nat.div_lt_self (by omega) (by omega)
        omega
      rw [lebEncF_congr m ((m + 1) / 128) ((m + 1) / 128) hd le_rfl]

theorem decodeLeb_lebEnc : ∀ (n : Nat) (rest : List Nat),
    decodeLeb (lebEnc n ++ rest) = some (n, rest) := by
  intro n
  induction n using Nat.strong_induction_on with
  | _ n ih =>
    intro rest
    rw [lebEnc_unfold]
    by_cases hn : n < 128
    · simp [hn, decodeLeb]
    · have hd : n / 128 < n := Nat.div_lt_self (by omega) (by omega)
      have hm : n % 128 < 128 := Nat.mod_lt _ (by omega)
      simp only [hn, if_false, List.cons_append, decodeLeb]
      have h1 : ¬ n % 128 + 128 < 128 := by omega
      have h2 : n % 128 + 128 < 256 := by omega
      simp only [h1, if_false, h2, if_true, ih (n / 128) hd rest]
      have h3 : ¬ n / 128 = 0 := by
        intro h0
        have := Nat.div_add_mod n 128
        omega
      simp only [h3, if_false]
      have h4 : n / 128 * 128 + (n % 128 + 128 - 128) = n := by
        have := Nat.div_add_mod n 128
        omega
      rw [h4]

theorem lebEnc_of_decodeLeb : ∀ (bs : List Nat) (n : Nat) (r : List Nat),
    decodeLeb bs = some (n, r) → lebEnc n ++ r = bs := by
  intro bs
  induction bs with
  | nil => intro n r h; simp [decodeLeb] at h
  | cons b rest ih =>
    intro n r h
    simp only [decodeLeb] at h
    by_cases hb : b < 128
    · simp only [hb, if_true, Option.some.injEq, Prod.mk.injEq] at h
      obtain ⟨rfl, rfl⟩ := h
      rw [lebEnc_unfold]
      simp [hb]
    · simp only [hb, if_false] at h
      by_cases hb2 : b < 256
      · simp only [hb2, if_true] at h
        match hdec : decodeLeb rest with
        | none => rw [hdec] at h; simp at h
        | some (m, r') =>
          rw [hdec] at h
          by_cases hm : m = 0
          · simp [hm] at h
          · simp only [hm, if_false, Option.some.injEq, Prod.mk.injEq] at h
            obtain ⟨rfl, rfl⟩ := h
            have ihm := ih m r' hdec
            rw [lebEnc_unfold]
            have hge : ¬ m * 128 + (b - 128) < 128 := by
              have : 1 ≤ m := by omega
              nlinarith
            simp only [hge, if_false]
            have hmod : (m * 128 + (b - 128)) % 128 = b - 128 := by
              rw [Nat.mul_comm, Nat.mul_add_mod]
              exact Nat.mod_eq_of_lt (by omega)
            have hdiv : (m * 128 + (b - 128)) / 128 = m := by
              rw [Nat.mul_comm, Nat.mul_add_div (by omega)]
              have : (b - 128) / 128 = 0 := Nat.div_eq_of_lt (by omega)
              omega
            rw [hmod, hdiv]
            have hb' : b - 128 + 128 = b := by omega
            rw [hb', List.cons_append, ihm]
      · simp [hb2] at h

theorem parseSecs_sound : ∀ (fuel : Nat) (bs : List Nat) (ss : List Sec),
    parseSecs fuel bs = some ss → encodeSecs ss = bs ∧ ∀ s ∈ ss, secWF s = true := by
  intro fuel
  induction fuel with
  | zero =>
    intro bs ss h
    cases bs with
    | nil =>
      simp only [parseSecs, Option.some.injEq] at h
      subst h
      simp [encodeSecs]
    | cons b rest => simp [parseSecs] at h
  | succ f ih =>
    intro bs ss h
    cases bs with
    | nil =>
      simp only [parseSecs, Option.some.injEq] at h
      subst h
      simp [encodeSecs]
    | cons id rest =>
      simp only [parseSecs] at h
      match hdec : decodeLeb rest with
      | none => rw [hdec] at h; simp at h
      | some (size, r1) =>
        rw [hdec] at h
        simp only at h
        have hrest := lebEnc_of_decodeLeb rest size r1 hdec
        by_cases hsz : size ≤ r1.length
        · simp only [hsz, if_true] at h
          have hclen : (r1.take size).length = size := by
            rw [List.length_take]
            omega
          by_cases hid : id = 0
          · simp only [hid, if_true] at h
            match hdec2 : decodeLeb (r1.take size) with
            | none => rw [hdec2] at h; simp at h
            | some (nlen, c1) =>
              rw [hdec2] at h
              simp only at h
              have hcontent := lebEnc_of_decodeLeb _ nlen c1 hdec2
              by_cases hnl : nlen ≤ c1.length
              · simp only [hnl, if_true] at h
                obtain ⟨tl, htl, hss⟩ := Option.map_eq_some'.mp h
                obtain ⟨henc, hwf⟩ := ih _ _ htl
                subst hss
                subst hid
                constructor
                · have hname : (c1.take nlen).length = nlen := by
                    rw [List.length_take]
                    omega
                  have hA : lebEnc ((c1.take nlen).length) ++ c1.take nlen ++ c1.drop nlen
                      = r1.take size := by
                    rw [hname, List.append_assoc, List.take_append_drop]
                    exact hcontent
                  simp only [encodeSecs, encodeSec]
                  rw [hA, hclen, henc, List.append_assoc, List.take_append_drop, ← hrest, List.cons_append]
                · intro s hs
                  rcases List.mem_cons.mp hs with hh | hh
                  · subst hh; rfl
                  · exact hwf s hh
              · simp [hnl] at h
          · simp only [hid, if_false] at h
            obtain ⟨tl, htl, hss⟩ := Option.map_eq_some'.mp h
            obtain ⟨henc, hwf⟩ := ih _ _ htl
            subst hss
            constructor
            · simp only [encodeSecs, encodeSec]
              rw [hclen, henc, List.append_assoc, List.take_append_drop, ← hrest, List.cons_append]
            · intro s hs
              rcases List.mem_cons.mp hs with hh | hh
              · subst hh
                simp [secWF, hid]
              · exact hwf s hh
        · simp [hsz] at h

theorem encodeSecs_length : ∀ (ss : List Sec), ss.length ≤ (encodeSecs ss).length := by
  intro ss
  induction ss with
  | nil => simp [encodeSecs]
  | cons s tl ih =>
    simp only [encodeSecs, List.length_cons, List.length_append]
    have hone : 1 ≤ (encodeSec s).length := by
      cases s <;> simp [encodeSec]
    omega

theorem parseSecs_step (s : Sec) (f : Nat) (restB : List Nat) (hwf : secWF s = true) :
    parseSecs (f + 1) (encodeSec s ++ restB) = (parseSecs f restB).map (s :: ·) := by
  cases s with
  | custom name data =>
    have hA : encodeSec (Sec.custom name data) ++ restB
        = 0 :: (lebEnc (lebEnc name.length ++ (name ++ data)).length
            ++ ((lebEnc name.length ++ (name ++ data)) ++ restB)) := by
      simp [encodeSec, List.append_assoc]
    rw [hA]
    simp only [parseSecs]
    rw [decodeLeb_lebEnc]
    simp only
    have hle : (lebEnc name.length ++ (name ++ data)).length
        ≤ ((lebEnc name.length ++ (name ++ data)) ++ restB).length := by
      simp
    rw [if_pos hle, if_pos trivial, List.take_left, List.drop_left, decodeLeb_lebEnc]
    simp only
    have hnle : name.length ≤ (name ++ data).length := by simp
    rw [if_pos hnle, List.take_left, List.drop_left]
  | other id data =>
    have hid : id ≠ 0 := by simpa [secWF] using hwf
    have hA : encodeSec (Sec.other id data) ++ restB
        = id :: (lebEnc data.length ++ (data ++ restB)) := by
      simp [encodeSec, List.append_assoc]
    rw [hA]
    simp only [parseSecs]
    rw [decodeLeb_lebEnc]
    simp only
    have hle : data.length ≤ (data ++ restB).length := by simp
    rw [if_pos hle, if_neg hid, List.take_left, List.drop_left]

theorem parseSecs_complete : ∀ (ss : List Sec) (fuel : Nat),
    (∀ s ∈ ss, secWF s = true) → ss.length ≤ fuel →
    parseSecs fuel (encodeSecs ss) = some ss := by
  intro ss
  induction ss with
  | nil =>
    intro fuel _ _
    cases fuel <;> simp [parseSecs, encodeSecs]
  | cons s tl ih =>
    intro fuel hwf hlen
    cases fuel with
    | zero => simp at hlen
    | succ f =>
      have hwtl : ∀ x ∈ tl, secWF x = true := fun x hx => hwf x (List.mem_cons_of_mem _ hx)
      have hltl : tl.length ≤ f := by simp at hlen; omega
      have hs : secWF s = true := hwf s (List.mem_cons_self _ _)
      show parseSecs (f + 1) (encodeSecs (s :: tl)) = some (s :: tl)
      rw [show encodeSecs (s :: tl) = encodeSec s ++ encodeSecs tl from rfl]
      rw [parseSecs_step s f _ hs, ih f hwtl hltl]
      rfl

theorem parseModule_sound (bs : List Nat) (ss : List Sec)
    (h : parseModule bs = some ss) :
    encodeModule ss = bs ∧ ∀ s ∈ ss, secWF s = true := by
  unfold parseModule at h
  by_cases hp : moduleHeader.isPrefixOf bs
  · rw [if_pos hp] at h
    obtain ⟨t, ht⟩ := List.isPrefixOf_iff_prefix.mp hp
    subst ht
    rw [List.drop_left] at h
    obtain ⟨henc, hwf⟩ := parseSecs_sound _ _ _ h
    exact ⟨by rw [encodeModule, henc], hwf⟩
  · rw [if_neg hp] at h
    exact absurd h (by simp)

theorem parseModule_complete (ss : List Sec) (hwf : ∀ s ∈ ss, secWF s = true) :
    parseModule (encodeModule ss) = some ss := by
  unfold parseModule encodeModule
  have hp : moduleHeader.isPrefixOf (moduleHeader ++ encodeSecs ss) :=
    List.isPrefixOf_iff_prefix.mpr ⟨encodeSecs ss, rfl⟩
  rw [if_pos hp, List.drop_left]
  apply parseSecs_complete _ _ hwf
  have h1 := encodeSecs_length ss
  simp only [List.length_append]
  omega

theorem encodeSecs_append (a b : List Sec) :
    encodeSecs (a ++ b) = encodeSecs a ++ encodeSecs b := by
  induction a with
  | nil => simp [encodeSecs]
  | cons s tl ih => simp [encodeSecs, ih]

theorem encodeModule_append_sec (ss : List Sec) (c : Sec) :
    encodeModule (ss ++ [c]) = encodeModule ss ++ encodeSec c := by
  unfold encodeModule
  rw [encodeSecs_append]
  simp [encodeSecs, List.append_assoc]

theorem rewriteBytes_eq (bs : List Nat) (ss : List Sec) (n d : List Nat)
    (h : parseModule bs = some ss) :
    rewriteBytes bs n d = some (bs ++ encodeSec (.custom n d)) ∧
    parseModule (bs ++ encodeSec (.custom n d)) = some (ss ++ [.custom n d]) := by
  obtain ⟨henc, hwf⟩ := parseModule_sound bs ss h
  have hEM : encodeModule (ss ++ [Sec.custom n d]) = bs ++ encodeSec (Sec.custom n d) := by
    rw [encodeModule_append_sec, henc]
  constructor
  · unfold rewriteBytes
    rw [h]
    simp only [Option.map_some']
    rw [hEM]
  · have hwf2 : ∀ s ∈ ss ++ [Sec.custom n d], secWF s = true := by
      intro s hs
      rcases List.mem_append.mp hs with hh | hh
      · exact hwf s hh
      · simp only [List.mem_singleton] at hh
        subst hh
        rfl
    rw [← hEM]
    exact parseModule_complete _ hwf2

theorem serStr_shape (s X : Chars) :
    serStr s ++ X = '"' :: ((s.map escapeChar).flatten ++ ('"' :: X)) := by
  simp [serStr, List.cons_append, List.append_assoc]

theorem serStr_len (s : Chars) : 2 ≤ (serStr s).length := by
  simp [serStr]

theorem parseStrBody_quote (rest : Chars) : parseStrBody ('"' :: rest) = some ([], rest) := by
  rw [parseStrBody.eq_def]
  simp

theorem parseStrBody_esc (c : Char) (rest : Chars) :
    parseStrBody ('\\' :: c :: rest) = (parseStrBody rest).map (fun p => (c :: p.1, p.2)) := by
  rw [parseStrBody.eq_def]
  simp

theorem parseStrBody_other (c : Char) (rest : Chars) (hb : c ≠ '\\') (hq : c ≠ '"') :
    parseStrBody (c :: rest) = (parseStrBody rest).map (fun p => (c :: p.1, p.2)) := by
  rw [parseStrBody.eq_def]
  simp [hb, hq]

theorem parseStrBody_escape : ∀ (s rest : Chars),
    parseStrBody ((s.map escapeChar).flatten ++ ('"' :: rest)) = some (s, rest) := by
  intro s
  induction s with
  | nil =>
    intro rest
    simpa using parseStrBody_quote rest
  | cons c s' ih =>
    intro rest
    by_cases hb : c = '\\'
    · subst hb
      simp [escapeChar, parseStrBody_esc, ih]
    · by_cases hq : c = '"'
      · subst hq
        simp [escapeChar, parseStrBody_esc, ih]
      · simp [escapeChar, hb, hq, parseStrBody_other c _ hb hq, ih]

theorem parseV_quote (f : Nat) (rest : Chars) :
    parseV (f + 1) ('"' :: rest) = (parseStrBody rest).map (fun p => (.str p.1, p.2)) := rfl

theorem parseV_serStr (d : Chars) (f : Nat) (rest : Chars) (hf : 1 ≤ f) :
    parseV f (serStr d ++ rest) = some (.str d, rest) := by
  obtain ⟨g, rfl⟩ : ∃ g, f = g + 1 := ⟨f - 1, by omega⟩
  rw [serStr_shape, parseV_quote, parseStrBody_escape]
  rfl

theorem serObj_nil_shape (R : Chars) : serObj [] ++ R = '{' :: '}' :: R := by
  simp [serObj, serMembers]

theorem serObj_cons_shape (m : Chars × Chars) (ms : List (Chars × Chars)) (R : Chars) :
    serObj (m :: ms) ++ R = '{' :: (serMembers (m :: ms) ++ ('}' :: R)) := by
  simp [serObj, List.cons_append, List.append_assoc]

theorem serMembers_single_shape (k v Y : Chars) :
    serMembers [(k, v)] ++ Y = serStr k ++ (':' :: (v ++ Y)) := by
  simp [serMembers, List.cons_append, List.append_assoc]

theorem serMembers_cons_shape (k v : Chars) (m2 : Chars × Chars)
    (ms : List (Chars × Chars)) (Y : Chars) :
    serMembers ((k, v) :: m2 :: ms) ++ Y
      = serStr k ++ (':' :: (v ++ (',' :: (serMembers (m2 :: ms) ++ Y)))) := by
  simp [serMembers, List.cons_append, List.append_assoc]

theorem serMembers_head (l : List (Chars × Chars)) (k v : Chars) :
    ∃ B, serMembers ((k, v) :: l) = '"' :: B := by
  cases l with
  | nil =>
    refine ⟨(k.map escapeChar).flatten ++ ('"' :: (':' :: v)), ?_⟩
    have h := serStr_shape k (':' :: v)
    simpa [serMembers] using h
  | cons m2 ms =>
    refine ⟨(k.map escapeChar).flatten
      ++ ('"' :: (':' :: (v ++ (',' :: serMembers (m2 :: ms))))), ?_⟩
    have h := serStr_shape k (':' :: (v ++ (',' :: serMembers (m2 :: ms))))
    rw [← h]
    simp [serMembers, List.cons_append, List.append_assoc]

theorem parseV_objEmpty (f : Nat) (rest : Chars) :
    parseV (f + 1) ('{' :: '}' :: rest) = some (.obj [], rest) := rfl

theorem parseV_objQuote (f : Nat) (rest : Chars) :
    parseV (f + 1) ('{' :: '"' :: rest)
      = (parseMembers f ('"' :: rest)).map (fun p => (.obj p.1, p.2)) := rfl

theorem parseMembers_key (f : Nat) (k Z : Chars) :
    parseMembers (f + 1) (serStr k ++ (':' :: Z))
      = match parseV f Z with
        | none => none
        | some (v, s3) =>
          match s3 with
          | ',' :: s4 => (parseMembers f s4).map (fun p => ((k, v) :: p.1, p.2))
          | '}' :: s4 => some ([(k, v)], s4)
          | _ => none := by
  rw [serStr_shape]
  have h1 : parseMembers (f + 1) ('"' :: ((k.map escapeChar).flatten ++ ('"' :: (':' :: Z))))
      = match parseStrBody ((k.map escapeChar).flatten ++ ('"' :: (':' :: Z))) with
        | none => none
        | some (key, s1) =>
          match s1 with
          | ':' :: s2 =>
            match parseV f s2 with
            | none => none
            | some (v, s3) =>
              match s3 with
              | ',' :: s4 => (parseMembers f s4).map (fun p => ((key, v) :: p.1, p.2))
              | '}' :: s4 => some ([(key, v)], s4)
              | _ => none
          | _ => none := rfl
  rw [h1, parseStrBody_escape]
  rfl

theorem parseMembers_key_last (f : Nat) (k sv rest : Chars) (jv : Json)
    (hv : parseV f (sv ++ ('}' :: rest)) = some (jv, '}' :: rest)) :
    parseMembers (f + 1) (serStr k ++ (':' :: (sv ++ ('}' :: rest))))
      = some ([(k, jv)], rest) := by
  rw [parseMembers_key, hv]
  rfl

theorem parseMembers_key_more (f : Nat) (k sv R : Chars) (jv : Json)
    (hv : parseV f (sv ++ (',' :: R)) = some (jv, ',' :: R)) :
    parseMembers (f + 1) (serStr k ++ (':' :: (sv ++ (',' :: R))))
      = (parseMembers f R).map (fun p => ((k, jv) :: p.1, p.2)) := by
  rw [parseMembers_key, hv]
  rfl

theorem parseMembers_ser :
    ∀ (ms : List (Chars × Chars × Json)) (f : Nat) (rest : Chars),
    ms ≠ [] →
    (serMembers (ms.map (fun m => (m.1, m.2.1)))).length ≤ f →
    (∀ m ∈ ms, ∀ (g : Nat) (r : Chars), m.2.1.length ≤ g →
        parseV g (m.2.1 ++ r) = some (m.2.2, r)) →
    parseMembers f (serMembers (ms.map (fun m => (m.1, m.2.1))) ++ ('}' :: rest))
      = some (ms.map (fun m => (m.1, m.2.2)), rest) := by
  intro ms
  induction ms with
  | nil => intro f rest hne _ _; exact absurd rfl hne
  | cons m ms' ih =>
    intro f rest _ hlen hvals
    obtain ⟨k, sv, jv⟩ := m
    cases ms' with
    | nil =>
      simp only [List.map_cons, List.map_nil] at hlen ⊢
      have hsk := serStr_len k
      simp only [serMembers, List.length_append, List.length_cons] at hlen
      obtain ⟨g, rfl⟩ : ∃ g, f = g + 1 := ⟨f - 1, by omega⟩
      rw [serMembers_single_shape]
      exact parseMembers_key_last g k sv rest jv
        (hvals ⟨k, sv, jv⟩ (List.mem_singleton.mpr rfl) g ('}' :: rest)
          (by show sv.length ≤ g; omega))
    | cons m2 ms'' =>
      simp only [List.map_cons] at hlen ⊢
      have hsk := serStr_len k
      have hlen' : (serStr k).length + (sv.length
          + (serMembers ((m2.1, m2.2.1) :: ms''.map (fun m => (m.1, m.2.1)))).length + 2)
            ≤ f := by
        simpa [serMembers, List.length_append, List.length_cons] using hlen
      obtain ⟨g, rfl⟩ : ∃ g, f = g + 1 := ⟨f - 1, by omega⟩
      rw [serMembers_cons_shape]
      rw [parseMembers_key_more g k sv _ jv
        (hvals ⟨k, sv, jv⟩ (List.mem_cons_self _ _) g _
          (by show sv.length ≤ g; omega))]
      have hih := ih g rest (by simp) (by simp only [List.map_cons]; omega)
        (fun x hx => hvals x (List.mem_cons_of_mem _ hx))
      simp only [List.map_cons] at hih
      rw [hih]
      rfl

theorem parseV_serObj :
    ∀ (ms : List (Chars × Chars × Json)) (f : Nat) (rest : Chars),
    (serObj (ms.map (fun m => (m.1, m.2.1)))).length ≤ f →
    (∀ m ∈ ms, ∀ (g : Nat) (r : Chars), m.2.1.length ≤ g →
        parseV g (m.2.1 ++ r) = some (m.2.2, r)) →
    parseV f (serObj (ms.map (fun m => (m.1, m.2.1))) ++ rest)
      = some (.obj (ms.map (fun m => (m.1, m.2.2))), rest) := by
  intro ms f rest hlen hvals
  have h2 : 2 ≤ f := by
    have h := hlen
    simp only [serObj, List.length_cons, List.length_append] at h
    omega
  obtain ⟨g, rfl⟩ : ∃ g, f = g + 1 := ⟨f - 1, by omega⟩
  cases ms with
  | nil =>
    rw [List.map_nil, serObj_nil_shape]
    exact parseV_objEmpty g rest
  | cons m ms' =>
    obtain ⟨k, sv, jv⟩ := m
    simp only [List.map_cons] at hlen ⊢
    rw [serObj_cons_shape]
    obtain ⟨B, hB⟩ := serMembers_head (ms'.map (fun m => (m.1, m.2.1))) k sv
    rw [hB, List.cons_append, parseV_objQuote, ← List.cons_append, ← hB]
    have hml : (serMembers ((k, sv) :: ms'.map (fun m => (m.1, m.2.1)))).length ≤ g := by
      simp only [serObj, List.length_cons, List.length_append] at hlen
      omega
    have hser := parseMembers_ser (⟨k, sv, jv⟩ :: ms') g rest (by simp) (by
      simpa only [List.map_cons] using hml) hvals
    simp only [List.map_cons] at hser
    rw [hser]
    rfl

theorem parseV_serFunc (fd : FuncDocs) (f : Nat) (rest : Chars)
    (hf : (serFunc fd).length ≤ f) :
    parseV f (serFunc fd ++ rest) = some (fd.toJson, rest) := by
  obtain ⟨d⟩ := fd
  cases d with
  | none =>
    have hlen : (serObj (([] : List (Chars × Chars × Json)).map
        (fun m => (m.1, m.2.1)))).length ≤ f := by
      simpa [serFunc] using hf
    have h := parseV_serObj [] f rest hlen (by intro m hm; simp at hm)
    simpa [serFunc, FuncDocs.toJson] using h
  | some d =>
    have hlen : (serObj ([(kDocs, serStr d, Json.str d)].map
        (fun m => (m.1, m.2.1)))).length ≤ f := by
      simpa [serFunc] using hf
    have h := parseV_serObj [(kDocs, serStr d, Json.str d)] f rest hlen (by
      intro m hm g r hg
      simp only [List.mem_singleton] at hm
      subst hm
      have hg' : (serStr d).length ≤ g := hg
      have hs := serStr_len d
      exact parseV_serStr d g r (by omega))
    simpa [serFunc, FuncDocs.toJson] using h

theorem parseV_serFuncs (fs : List (Chars × FuncDocs)) (f : Nat) (rest : Chars)
    (hf : (serFuncs fs).length ≤ f) :
    parseV f (serFuncs fs ++ rest) = some (funcsToJson fs, rest) := by
  have hmap1 : (fs.map (fun p => (p.1, serFunc p.2, FuncDocs.toJson p.2))).map
      (fun m => (m.1, m.2.1)) = fs.map (fun p => (p.1, serFunc p.2)) := by
    rw [List.map_map]
    rfl
  have hmap2 : (fs.map (fun p => (p.1, serFunc p.2, FuncDocs.toJson p.2))).map
      (fun m => (m.1, m.2.2)) = fs.map (fun p => (p.1, FuncDocs.toJson p.2)) := by
    rw [List.map_map]
    rfl
  have h := parseV_serObj (fs.map (fun p => (p.1, serFunc p.2, FuncDocs.toJson p.2))) f rest
    (by rw [hmap1]; exact hf)
    (by
      intro m hm g r hg
      obtain ⟨p, hp, rfl⟩ := List.mem_map.mp hm
      exact parseV_serFunc p.2 g r hg)
  rw [hmap1, hmap2] at h
  exact h

theorem parseV_serWorld (w : WorldDocs) (f : Nat) (rest : Chars)
    (hf : (serWorld w).length ≤ f) :
    parseV f (serWorld w ++ rest) = some (w.toJson, rest) := by
  obtain ⟨d, exps, imps⟩ := w
  cases d with
  | none =>
    have hlen : (serObj ([(kFuncExports, serFuncs exps, funcsToJson exps),
        (kFuncImports, serFuncs imps, funcsToJson imps)].map
        (fun m => (m.1, m.2.1)))).length ≤ f := by
      simpa [serWorld] using hf
    have h := parseV_serObj [(kFuncExports, serFuncs exps, funcsToJson exps),
        (kFuncImports, serFuncs imps, funcsToJson imps)] f rest hlen (by
      intro m hm g r hg
      rcases List.mem_cons.mp hm with hh | hh
      · subst hh
        exact parseV_serFuncs exps g r hg
      · simp only [List.mem_singleton] at hh
        subst hh
        exact parseV_serFuncs imps g r hg)
    simpa [serWorld, WorldDocs.toJson] using h
  | some d =>
    have hlen : (serObj ([(kDocs, serStr d, Json.str d),
        (kFuncExports, serFuncs exps, funcsToJson exps),
        (kFuncImports, serFuncs imps, funcsToJson imps)].map
        (fun m => (m.1, m.2.1)))).length ≤ f := by
      simpa [serWorld] using hf
    have h := parseV_serObj [(kDocs, serStr d, Json.str d),
        (kFuncExports, serFuncs exps, funcsToJson exps),
        (kFuncImports, serFuncs imps, funcsToJson imps)] f rest hlen (by
      intro m hm g r hg
      rcases List.mem_cons.mp hm with hh | hh
      · subst hh
        have hg' : (serStr d).length ≤ g := hg
        have hs := serStr_len d
        exact parseV_serStr d g r (by omega)
      · rcases List.mem_cons.mp hh with hh2 | hh2
        · subst hh2
          exact parseV_serFuncs exps g r hg
        · simp only [List.mem_singleton] at hh2
          subst hh2
          exact parseV_serFuncs imps g r hg)
    simpa [serWorld, WorldDocs.toJson] using h

theorem parseV_serWorldsObj (ws : List (Chars × WorldDocs)) (f : Nat) (rest : Chars)
    (hf : (serObj (ws.map (fun p => (p.1, serWorld p.2)))).length ≤ f) :
    parseV f (serObj (ws.map (fun p => (p.1, serWorld p.2))) ++ rest)
      = some (.obj (ws.map (fun p => (p.1, WorldDocs.toJson p.2))), rest) := by
  have hmap1 : (ws.map (fun p => (p.1, serWorld p.2, WorldDocs.toJson p.2))).map
      (fun m => (m.1, m.2.1)) = ws.map (fun p => (p.1, serWorld p.2)) := by
    rw [List.map_map]
    rfl
  have hmap2 : (ws.map (fun p => (p.1, serWorld p.2, WorldDocs.toJson p.2))).map
      (fun m => (m.1, m.2.2)) = ws.map (fun p => (p.1, WorldDocs.toJson p.2)) := by
    rw [List.map_map]
    rfl
  have h := parseV_serObj (ws.map (fun p => (p.1, serWorld p.2, WorldDocs.toJson p.2))) f rest
    (by rw [hmap1]; exact hf)
    (by
      intro m hm g r hg
      obtain ⟨p, hp, rfl⟩ := List.mem_map.mp hm
      exact parseV_serWorld p.2 g r hg)
  rw [hmap1, hmap2] at h
  exact h

theorem parseV_serDocTree (t : DocTree) (f : Nat) (rest : Chars)
    (hf : (serDocTree t).length ≤ f) :
    parseV f (serDocTree t ++ rest) = some (t.toJson, rest) := by
  obtain ⟨ws⟩ := t
  have hlen : (serObj ([(kWorlds, serObj (ws.map (fun p => (p.1, serWorld p.2))),
      Json.obj (ws.map (fun p => (p.1, WorldDocs.toJson p.2))))].map
      (fun m => (m.1, m.2.1)))).length ≤ f := by
    simpa [serDocTree] using hf
  have h := parseV_serObj [(kWorlds, serObj (ws.map (fun p => (p.1, serWorld p.2))),
      Json.obj (ws.map (fun p => (p.1, WorldDocs.toJson p.2))))] f rest hlen (by
    intro m hm g r hg
    simp only [List.mem_singleton] at hm
    subst hm
    exact parseV_serWorldsObj ws g r hg)
  simpa [serDocTree, DocTree.toJson] using h

theorem jsonDecode_serDocTree (t : DocTree) :
    jsonDecode (serDocTree t) = some t.toJson := by
  unfold jsonDecode
  have h := parseV_serDocTree t ((serDocTree t).length + 1) [] (by omega)
  rw [List.append_nil] at h
  rw [h]

theorem map_ofNat_toNat (cs : Chars) : (cs.map Char.toNat).map Char.ofNat = cs := by
  induction cs with
  | nil => rfl
  | cons c cs' ih => simp [ih, Char.ofNat_toNat]

theorem jsonToFunc_toJson (fd : FuncDocs) : jsonToFunc fd.toJson = some fd := by
  obtain ⟨d⟩ := fd
  cases d with
  | none => rfl
  | some d => rfl

theorem mapFieldsM_toJson_funcs : ∀ (fs : List (Chars × FuncDocs)),
    mapFieldsM jsonToFunc (fs.map (fun p => (p.1, p.2.toJson))) = some fs := by
  intro fs
  induction fs with
  | nil => rfl
  | cons p fs' ih => simp [mapFieldsM, jsonToFunc_toJson, ih]

theorem jsonToWorld_toJson (w : WorldDocs) : jsonToWorld w.toJson = some w := by
  obtain ⟨d, exps, imps⟩ := w
  have h1 : kFuncExports ≠ kDocs := by decide
  have h2 : kFuncImports ≠ kDocs := by decide
  have h3 : kFuncExports ≠ kFuncImports := by decide
  have h4 : kDocs ≠ kFuncExports := by decide
  have h5 : kDocs ≠ kFuncImports := by decide
  cases d with
  | none =>
    simp [WorldDocs.toJson, jsonToWorld, lookupField, fieldAsFuncs, funcsToJson,
      Json.asObj, mapFieldsM_toJson_funcs, h1, h2, h3]
  | some d =>
    simp [WorldDocs.toJson, jsonToWorld, lookupField, fieldAsFuncs, funcsToJson,
      Json.asObj, Json.asStr, mapFieldsM_toJson_funcs, h1, h2, h3, h4, h5]

theorem mapFieldsM_toJson_worlds : ∀ (ws : List (Chars × WorldDocs)),
    mapFieldsM jsonToWorld (ws.map (fun p => (p.1, p.2.toJson))) = some ws := by
  intro ws
  induction ws with
  | nil => rfl
  | cons p ws' ih => simp [mapFieldsM, jsonToWorld_toJson, ih]

theorem jsonToDocTree_toJson (t : DocTree) : jsonToDocTree t.toJson = some t := by
  obtain ⟨ws⟩ := t
  simp [jsonToDocTree, DocTree.toJson, Json.get, lookupField, Json.asObj,
    mapFieldsM_toJson_worlds]

theorem sectionDecode_metaEncode (t : DocTree) : sectionDecode (metaEncode t) = some t := by
  unfold sectionDecode metaEncode
  have h2 : 2 ≤ (serDocTree t).length := by
    obtain ⟨ws⟩ := t
    simp [serDocTree, serObj]
  have hlen2 : ¬ ((0 :: (serDocTree t).map Char.toNat).length ≤ 1) := by
    simp only [List.length_cons, List.length_map]
    omega
  rw [if_neg hlen2]
  have hdrop : (0 :: (serDocTree t).map Char.toNat).drop 1 = (serDocTree t).map Char.toNat := rfl
  rw [hdrop, map_ofNat_toNat, jsonDecode_serDocTree]
  simp [jsonToDocTree_toJson]

theorem extractFromSecs_skip (ss tail : List Sec)
    (h : ∀ s ∈ ss, isLongPD s = false) :
    extractFromSecs (ss ++ tail) = extractFromSecs tail := by
  induction ss with
  | nil => rfl
  | cons s rest ih =>
    have hs := h s (List.mem_cons_self _ _)
    have hrest : ∀ x ∈ rest, isLongPD x = false :=
      fun x hx => h x (List.mem_cons_of_mem _ hx)
    cases s with
    | custom name data =>
      by_cases hn : name = pdName
      · have hlen : ¬ data.length > 1 := by
          simp [isLongPD, hn] at hs
          omega
        simp only [List.cons_append, extractFromSecs, hn, if_true, if_pos rfl]
        rw [if_neg hlen]
        exact ih hrest
      · simp only [List.cons_append, extractFromSecs]
        rw [if_neg hn]
        exact ih hrest
    | other id data =>
      simp only [List.cons_append, extractFromSecs]
      exact ih hrest

theorem extractFromSecs_pd_long (d : List Nat) (post : List Sec) (hd : d.length > 1) :
    extractFromSecs (.custom pdName d :: post)
      = match jsonDecode ((d.drop 1).map Char.ofNat) with
        | some j => .ok (some j)
        | none => .error ("Failed to parse package-docs JSON".data) := by
  simp only [extractFromSecs, if_pos rfl]
  simp [hd]

theorem metaEncode_length (t : DocTree) : 2 < (metaEncode t).length := by
  obtain ⟨ws⟩ := t
  simp [metaEncode, serDocTree, serObj]

theorem extractFromSecs_pd_encode (t : DocTree) (post : List Sec) :
    extractFromSecs (.custom pdName (metaEncode t) :: post) = .ok (some t.toJson) := by
  rw [extractFromSecs_pd_long (metaEncode t) post (by have := metaEncode_length t; omega)]
  have hdrop : ((metaEncode t).drop 1).map Char.ofNat = serDocTree t := by
    show ((serDocTree t).map Char.toNat).map Char.ofNat = serDocTree t
    exact map_ofNat_toNat _
  rw [hdrop, jsonDecode_serDocTree]

theorem extractFromSecs_all_short (ss : List Sec)
    (h : ∀ name data, Sec.custom name data ∈ ss → name = pdName → data.length ≤ 1) :
    extractFromSecs ss = .ok none := by
  have h' : ∀ s ∈ ss, isLongPD s = false := by
    intro s hs
    cases s with
    | custom name data =>
      simp only [isLongPD, Bool.and_eq_false_iff]
      by_cases hn : name = pdName
      · right
        have := h name data hs hn
        simpa using this
      · left
        simpa using hn
    | other id data => rfl
  have := extractFromSecs_skip ss [] h'
  simpa using this

theorem extractFromSecs_error (ss : List Sec) (e : List Char)
    (h : extractFromSecs ss = .error e) :
    ∃ pre d post, ss = pre ++ .custom pdName d :: post ∧ d.length > 1
      ∧ jsonDecode ((d.drop 1).map Char.ofNat) = none := by
  induction ss with
  | nil => simp [extractFromSecs] at h
  | cons s rest ih =>
    cases s with
    | custom name data =>
      by_cases hn : name = pdName
      · subst hn
        by_cases hl : data.length > 1
        · rw [extractFromSecs_pd_long data rest hl] at h
          match hdec : jsonDecode ((data.drop 1).map Char.ofNat) with
          | some j => rw [hdec] at h; simp at h
          | none =>
            exact ⟨[], data, rest, by simp, hl, hdec⟩
        · simp only [extractFromSecs, if_pos rfl] at h
          rw [if_neg hl] at h
          obtain ⟨pre, d, post, heq, hld, hjd⟩ := ih h
          exact ⟨.custom pdName data :: pre, d, post, by simp [heq], hld, hjd⟩
      · simp only [extractFromSecs] at h
        rw [if_neg hn] at h
        obtain ⟨pre, d, post, heq, hld, hjd⟩ := ih h
        exact ⟨.custom name data :: pre, d, post, by simp [heq], hld, hjd⟩
    | other id data =>
      simp only [extractFromSecs] at h
      obtain ⟨pre, d, post, heq, hld, hjd⟩ := ih h
      exact ⟨.other id data :: pre, d, post, by simp [heq], hld, hjd⟩

theorem injectGo_nil (docs : Json) (st : Option Chars) : injectGo docs st [] = [] := by
  cases st <;> rfl

theorem injectGo_top_world (docs : Json) (line : Chars) (rest : List Chars)
    (hw : kWorldKw.isPrefixOf (trimChars line) = true) :
    injectGo docs none (line :: rest)
      = (match get_world_docs docs (extract_world_name (trimChars line)) with
         | some wd => docCommentLines [] wd
         | none => []) ++ line :: injectGo docs (some (extract_world_name (trimChars line))) rest := by
  simp only [injectGo]
  rw [if_pos hw]

theorem injectGo_top_plain (docs : Json) (line : Chars) (rest : List Chars)
    (hw : ¬ kWorldKw.isPrefixOf (trimChars line) = true) :
    injectGo docs none (line :: rest) = line :: injectGo docs none rest := by
  simp only [injectGo]
  rw [if_neg hw]

theorem injectGo_body (docs : Json) (w line : Chars) (rest : List Chars) :
    injectGo docs (some w) (line :: rest)
      = (if kExportKw.isPrefixOf (trimChars line) || kImportKw.isPrefixOf (trimChars line) then
          match extract_function_name (trimChars line) with
          | some fn =>
            match get_function_docs docs w fn with
            | some fd => docCommentLines (get_indent line) fd
            | none => []
          | none => []
        else [])
        ++ line :: injectGo docs (if trimChars line = kCloseBrace then none else some w) rest := by
  simp only [injectGo]

theorem docCommentLines_doc (ind wd : Chars) (hind : ∀ c ∈ ind, isWs c = true) :
    ∀ l ∈ docCommentLines ind wd, isDocCommentLine l := by
  intro l hl
  obtain ⟨dl, _, rfl⟩ := List.mem_map.mp hl
  exact ⟨ind, dl, hind, rfl⟩

theorem get_indent_ws (line : Chars) : ∀ c ∈ get_indent line, isWs c = true := by
  intro c hc
  exact List.mem_takeWhile_imp hc

theorem injectGo_step (docs : Json) (st : Option Chars) (line : Chars) (rest : List Chars) :
    ∃ extra st', injectGo docs st (line :: rest) = extra ++ line :: injectGo docs st' rest
      ∧ ∀ l ∈ extra, isDocCommentLine l := by
  cases st with
  | none =>
    by_cases hw : kWorldKw.isPrefixOf (trimChars line)
    · refine ⟨_, _, injectGo_top_world docs line rest hw, ?_⟩
      cases hgw : get_world_docs docs (extract_world_name (trimChars line)) with
      | none => simp [hgw]
      | some wd =>
        simp only [hgw]
        exact docCommentLines_doc [] wd (by simp)
    · exact ⟨[], none, by rw [injectGo_top_plain docs line rest hw, List.nil_append], by simp⟩
  | some w =>
    refine ⟨_, _, injectGo_body docs w line rest, ?_⟩
    by_cases he : kExportKw.isPrefixOf (trimChars line) || kImportKw.isPrefixOf (trimChars line)
    · simp only [he, if_true]
      cases hfn : extract_function_name (trimChars line) with
      | none => simp [hfn]
      | some fn =>
        simp only [hfn]
        cases hfd : get_function_docs docs w fn with
        | none => simp [hfd]
        | some fd =>
          simp only [hfd]
          exact docCommentLines_doc (get_indent line) fd (get_indent_ws line)
    · simp [he]

theorem injectGo_lines (docs : Json) :
    ∀ (lines : List Chars) (st : Option Chars),
    lines.Sublist (injectGo docs st lines)
      ∧ ∀ l ∈ injectGo docs st lines, l ∈ lines ∨ isDocCommentLine l := by
  intro lines
  induction lines with
  | nil =>
    intro st
    rw [injectGo_nil]
    exact ⟨List.nil_sublist _, by simp⟩
  | cons line rest ih =>
    intro st
    obtain ⟨extra, st', heq, hdoc⟩ := injectGo_step docs st line rest
    obtain ⟨ihs, ihm⟩ := ih st'
    rw [heq]
    refine ⟨?_, ?_⟩
    · have h1 : (line :: rest).Sublist (line :: injectGo docs st' rest) := ihs.cons₂ line
      exact h1.trans (List.sublist_append_right extra _)
    · intro l hl
      rcases List.mem_append.mp hl with hh | hh
      · exact Or.inr (hdoc l hh)
      · rcases List.mem_cons.mp hh with hh2 | hh2
        · exact Or.inl (hh2 ▸ List.mem_cons_self _ _)
        · rcases ihm l hh2 with hm | hm
          · exact Or.inl (List.mem_cons_of_mem _ hm)
          · exact Or.inr hm

theorem injectGo_ne_nil (docs : Json) (st : Option Chars) (line : Chars) (rest : List Chars) :
    injectGo docs st (line :: rest) ≠ [] := by
  obtain ⟨extra, st', heq, _⟩ := injectGo_step docs st line rest
  rw [heq]
  simp

theorem flatten_newline : ∀ (ls : List Chars), ls ≠ [] →
    ∃ s, ((ls.map (fun l => l ++ ['\n'])).flatten) = s ++ ['\n'] := by
  intro ls
  induction ls with
  | nil => intro h; exact absurd rfl h
  | cons l t ih =>
    intro _
    cases t with
    | nil => exact ⟨l, by simp⟩
    | cons l2 t2 =>
      obtain ⟨s, hs⟩ := ih (by simp)
      refine ⟨l ++ '\n' :: s, ?_⟩
      rw [List.map_cons, List.flatten_cons, hs]
      simp [List.append_assoc]

theorem get_world_docs_none (docs : Json) (worlds : List (Chars × Json)) (name : Chars)
    (hw : docs.get kWorlds = some (.obj worlds)) (h2 : worlds.length ≠ 1)
    (hlook : lookupField worlds name = none) :
    get_world_docs docs name = none := by
  simp [get_world_docs, hw, Json.asObj, hlook, h2]

theorem get_function_docs_none (docs : Json) (worlds : List (Chars × Json)) (w fn : Chars)
    (hw : docs.get kWorlds = some (.obj worlds)) (h2 : worlds.length ≠ 1)
    (hlook : lookupField worlds w = none) :
    get_function_docs docs w fn = none := by
  simp [get_function_docs, hw, Json.asObj, hlook, h2]

theorem inject_no_docs (docs : Json) (worlds : List (Chars × Json))
    (hw : docs.get kWorlds = some (.obj worlds)) (h2 : 2 ≤ worlds.length) :
    ∀ (lines : List Chars) (st : Option Chars),
    (∀ l ∈ lines, kWorldKw.isPrefixOf (trimChars l) →
        lookupField worlds (extract_world_name (trimChars l)) = none) →
    (st = none ∨ ∃ w, st = some w ∧ lookupField worlds w = none) →
    injectGo docs st lines = lines := by
  intro lines
  induction lines with
  | nil => intro st _ _; exact injectGo_nil docs st
  | cons line rest ih =>
    intro st hlines hst
    have hrest : ∀ l ∈ rest, kWorldKw.isPrefixOf (trimChars l) →
        lookupField worlds (extract_world_name (trimChars l)) = none :=
      fun l hl => hlines l (List.mem_cons_of_mem _ hl)
    have hlen1 : worlds.length ≠ 1 := by omega
    rcases hst with hst | ⟨w, hst, hwl⟩
    · subst hst
      by_cases hww : kWorldKw.isPrefixOf (trimChars line)
      · have hlook := hlines line (List.mem_cons_self _ _) hww
        rw [injectGo_top_world docs line rest hww,
          get_world_docs_none docs worlds _ hw hlen1 hlook]
        rw [ih (some (extract_world_name (trimChars line)))
          hrest (Or.inr ⟨_, rfl, hlook⟩)]
        rfl
      · rw [injectGo_top_plain docs line rest hww, ih none hrest (Or.inl rfl)]
    · subst hst
      rw [injectGo_body docs w line rest]
      have hdls : (if kExportKw.isPrefixOf (trimChars line)
            || kImportKw.isPrefixOf (trimChars line) then
          match extract_function_name (trimChars line) with
          | some fn =>
            match get_function_docs docs w fn with
            | some fd => docCommentLines (get_indent line) fd
            | none => []
          | none => []
        else []) = ([] : List Chars) := by
        by_cases he : kExportKw.isPrefixOf (trimChars line)
            || kImportKw.isPrefixOf (trimChars line)
        · rw [if_pos he]
          cases hfn : extract_function_name (trimChars line) with
          | none => rfl
          | some fn =>
            simp [get_function_docs_none docs worlds w fn hw hlen1 hwl]
        · rw [if_neg he]
      rw [hdls, List.nil_append]
      by_cases hcb : trimChars line = kCloseBrace
      · rw [if_pos hcb, ih none hrest (Or.inl rfl)]
      · rw [if_neg hcb, ih (some w) hrest (Or.inr ⟨w, rfl, hwl⟩)]

theorem splitOnP_ne_nil (p : Char → Bool) (s : Chars) : splitOnP p s ≠ [] := by
  cases s with
  | nil => simp [splitOnP]
  | cons c rest =>
    by_cases h : p c
    · simp [splitOnP, h]
    · cases hs : splitOnP p rest with
      | nil => simp [splitOnP, h, hs]
      | cons l ls => simp [splitOnP, h, hs]

theorem splitOnP_sep (p : Char → Bool) (c : Char) (hc : p c = true) :
    ∀ (xs ys : Chars), splitOnP p (xs ++ c :: ys) = splitOnP p xs ++ splitOnP p ys := by
  intro xs
  induction xs with
  | nil =>
    intro ys
    simp [splitOnP, hc]
  | cons x xs' ih =>
    intro ys
    by_cases hx : p x
    · simp [splitOnP, hx, ih]
    · cases hs : splitOnP p xs' with
      | nil => exact absurd hs (splitOnP_ne_nil p xs')
      | cons l ls =>
        simp only [List.cons_append, splitOnP, hx, if_false, Bool.false_eq_true,
          List.append_eq]
        rw [ih ys, hs]
        simp

theorem splitOnP_no_sep (p : Char → Bool) (ys : Chars) (h : ∀ y ∈ ys, p y = false) :
    splitOnP p ys = [ys] := by
  induction ys with
  | nil => rfl
  | cons y ys' ih =>
    have hy := h y (List.mem_cons_self _ _)
    have hys' := ih (fun z hz => h z (List.mem_cons_of_mem _ hz))
    simp [splitOnP, hy, hys']

theorem joinSep_splitOnP (c : Char) : ∀ (s : Chars),
    joinSep c (splitOnP (· = c) s) = s := by
  intro s
  induction s with
  | nil => rfl
  | cons x s' ih =>
    by_cases hx : x = c
    · subst hx
      have hsplit : splitOnP (· = x) (x :: s') = [] :: splitOnP (· = x) s' := by
        simp [splitOnP]
      rw [hsplit]
      cases hs : splitOnP (· = x) s' with
      | nil => exact absurd hs (splitOnP_ne_nil _ s')
      | cons l ls =>
        rw [hs] at ih
        show [] ++ x :: joinSep x (l :: ls) = x :: s'
        rw [List.nil_append, ih]
    · have hsplit : splitOnP (· = c) (x :: s')
          = match splitOnP (· = c) s' with
            | [] => [[x]]
            | l :: ls => (x :: l) :: ls := by
        simp [splitOnP, hx]
      cases hs : splitOnP (· = c) s' with
      | nil => exact absurd hs (splitOnP_ne_nil _ s')
      | cons l ls =>
        rw [hs] at ih hsplit
        rw [hsplit]
        cases ls with
        | nil =>
          show x :: l = x :: s'
          rw [show joinSep c [l] = l from rfl] at ih
          rw [ih]
        | cons l2 ls2 =>
          show (x :: l) ++ c :: joinSep c (l2 :: ls2) = x :: s'
          have ih2 : l ++ c :: joinSep c (l2 :: ls2) = s' := ih
          rw [List.cons_append, ih2]

theorem splitOnP_length_pos (p : Char → Bool) (s : Chars) : 1 ≤ (splitOnP p s).length := by
  cases hs : splitOnP p s with
  | nil => exact absurd hs (splitOnP_ne_nil p s)
  | cons l ls => simp

theorem splitOnP_singleton_eq (c : Char) (s l : Chars)
    (hs : splitOnP (· = c) s = [l]) : l = s := by
  have h := joinSep_splitOnP c s
  rw [hs] at h
  exact h

theorem stemExt_append (s e : Chars) (hs : s ≠ []) (he : ∀ x ∈ e, x ≠ '.') :
    stemExt (s ++ '.' :: e) = (s, some e) := by
  unfold stemExt
  rw [splitOnP_sep _ '.' (by simp) s e,
    splitOnP_no_sep _ e (by intro y hy; simpa using he y hy)]
  have hpos := splitOnP_length_pos (· = '.') s
  have h1 : ¬ ((splitOnP (· = '.') s ++ [e]).length ≤ 1) := by
    simp only [List.length_append, List.length_cons, List.length_nil]
    omega
  rw [if_neg h1]
  have hcond : ¬ ((splitOnP (· = '.') s ++ [e]).head? = some []
      ∧ (splitOnP (· = '.') s ++ [e]).length = 2) := by
    rintro ⟨hh, hl⟩
    cases hsp : splitOnP (· = '.') s with
    | nil => exact absurd hsp (splitOnP_ne_nil _ s)
    | cons l ls =>
      rw [hsp] at hh hl
      simp only [List.cons_append, List.head?_cons, Option.some.injEq] at hh
      subst hh
      simp only [List.cons_append, List.length_cons, List.length_append,
        List.length_nil] at hl
      have hls : ls = [] := by
        cases ls with
        | nil => rfl
        | cons a b => simp at hl
      subst hls
      exact hs (splitOnP_singleton_eq '.' s [] hsp).symm
  rw [if_neg hcond]
  rw [List.dropLast_concat, List.getLast?_concat, joinSep_splitOnP]

theorem derivedOutName_ext (s e : Chars) (hs : s ≠ []) (hdot : ∀ x ∈ e, x ≠ '.')
    (he : e ≠ []) :
    derivedOutName (s ++ '.' :: e) = s ++ ".docs.wasm".data := by
  have hneq : ¬ (s ++ ".docs.wasm".data = s ++ '.' :: e) := by
    intro h
    have h2 := List.append_cancel_left h
    have h3 : e = "docs.wasm".data := by
      have h4 := congrArg List.tail h2
      simp at h4
      exact h4.symm
    exact hdot '.' (by rw [h3]; decide) rfl
  have hfe : fileExt (s ++ '.' :: e) = some e := by
    unfold fileExt
    rw [stemExt_append s e hs hdot]
  have hfs : fileStem (s ++ '.' :: e) = s := by
    unfold fileStem
    rw [stemExt_append s e hs hdot]
  simp only [derivedOutName]
  rw [hfe]
  simp only [Option.getD_some]
  rw [if_neg he, hfs, if_neg hneq]

theorem outName_ne (stem f : Chars) :
    (if stem ++ ".docs.wasm".data = f then stem ++ ".docs.injected.wasm".data
     else stem ++ ".docs.wasm".data) ≠ f := by
  by_cases hcol : stem ++ ".docs.wasm".data = f
  · rw [if_pos hcol]
    intro h
    rw [← hcol] at h
    exact absurd (List.append_cancel_left h) (by decide)
  · rw [if_neg hcol]
    exact hcol

theorem derivedOutName_ne (f : Chars) : derivedOutName f ≠ f := by
  unfold derivedOutName
  exact outName_ne _ f

theorem inject_body_docstep (docs : Json) (w line : Chars) (rest : List Chars) (fn fd : Chars)
    (hexp : kExportKw.isPrefixOf (trimChars line) = true
      ∨ kImportKw.isPrefixOf (trimChars line) = true)
    (hfn : extract_function_name (trimChars line) = some fn)
    (hfd : get_function_docs docs w fn = some fd) :
    injectGo docs (some w) (line :: rest)
      = docCommentLines (get_indent line) fd ++ line :: injectGo docs (some w) rest := by
  have he : (kExportKw.isPrefixOf (trimChars line)
      || kImportKw.isPrefixOf (trimChars line)) = true := by
    rcases hexp with h | h <;> simp [h]
  have hne : trimChars line ≠ kCloseBrace := by
    intro hcb
    rcases hexp with h | h
    · rw [hcb] at h
      exact absurd h (by decide)
    · rw [hcb] at h
      exact absurd h (by decide)
  rw [injectGo_body docs w line rest, if_pos he, hfn]
  show (match get_function_docs docs w fn with
    | some fd => docCommentLines (get_indent line) fd
    | none => []) ++ line
      :: injectGo docs (if trimChars line = kCloseBrace then none else some w) rest = _
  rw [hfd, if_neg hne]

theorem get_world_docs_single (docs : Json) (wn : Chars) (w : Json) (name : Chars)
    (hw : docs.get kWorlds = some (.obj [(wn, w)])) (hne : wn ≠ name) :
    get_world_docs docs name = (w.get kDocs).bind Json.asStr := by
  simp [get_world_docs, hw, Json.asObj, lookupField, hne]

theorem get_function_docs_single (docs : Json) (wn : Chars) (w : Json) (name fn : Chars)
    (hw : docs.get kWorlds = some (.obj [(wn, w)])) (hne : wn ≠ name) :
    get_function_docs docs name fn = get_function_docs_from_world w fn := by
  simp [get_function_docs, hw, Json.asObj, lookupField, hne]

/-- Claim C1 (amended): decoding the encoding of any DocTree yields the tree
back, and extracting the managed section from the rewrite of a structurally
valid module yields the tree back, provided the module does not already
carry a "package-docs" custom section with a payload longer than the
version byte (the original claim, quantified over every module, fails on
such modules: the pre-existing section is found first). -/
theorem claimC1 (t : DocTree) (bs : List Nat) (ss : List Sec)
    (hp : parseModule bs = some ss)
    (hno : ∀ s ∈ ss, isLongPD s = false) :
    sectionDecode (metaEncode t) = some t
    ∧ ∃ out, rewriteBytes bs pdName (metaEncode t) = some out
        ∧ extract_package_docs out = .ok (some t.toJson)
        ∧ jsonToDocTree t.toJson = some t := by
  refine ⟨sectionDecode_metaEncode t,
    bs ++ encodeSec (.custom pdName (metaEncode t)), ?_, ?_, jsonToDocTree_toJson t⟩
  · exact (rewriteBytes_eq bs ss pdName (metaEncode t) hp).1
  · have h2 := (rewriteBytes_eq bs ss pdName (metaEncode t) hp).2
    unfold extract_package_docs
    rw [h2]
    show extractFromSecs (ss ++ [Sec.custom pdName (metaEncode t)]) = _
    rw [extractFromSecs_skip ss _ hno]
    exact extractFromSecs_pd_encode t []

theorem claimC1_witness :
    sectionDecode (metaEncode cxTreeA) = some cxTreeA
    ∧ ∃ out, rewriteBytes cxMod1 pdName (metaEncode cxTreeA) = some out
        ∧ extract_package_docs out = .ok (some cxTreeA.toJson)
        ∧ jsonToDocTree cxTreeA.toJson = some cxTreeA :=
  claimC1 cxTreeA cxMod1 [.other 7 [1, 2]] (by decide) (by decide)

set_option maxRecDepth 8000 in
/-- Counterexample to claim C1 as stated: rewriting a module that already
carries a "package-docs" section with tree B and then extracting yields
tree B, not the injected tree A. -/
theorem claimC1_counterexample :
    ∃ out, rewriteBytes cxModPD pdName (metaEncode cxTreeA) = some out
      ∧ extract_package_docs out = .ok (some cxTreeB.toJson)
      ∧ jsonToDocTree cxTreeB.toJson = some cxTreeB
      ∧ cxTreeB ≠ cxTreeA := by
  refine ⟨_, rfl, ?_, ?_, ?_⟩
  · rfl
  · rfl
  · decide

/-- Claim C2: rewriting a structurally valid module appends exactly the
encoding of one new custom section after the unchanged input bytes, and the
rewritten module parses to the original sections followed by the new one. -/
theorem claimC2 (bs : List Nat) (ss : List Sec) (n d : List Nat)
    (hp : parseModule bs = some ss) :
    rewriteBytes bs n d = some (bs ++ encodeSec (.custom n d))
    ∧ parseModule (bs ++ encodeSec (.custom n d)) = some (ss ++ [.custom n d]) :=
  rewriteBytes_eq bs ss n d hp

theorem claimC2_witness :
    rewriteBytes cxMod1 pdName [9] = some (cxMod1 ++ encodeSec (.custom pdName [9]))
    ∧ parseModule (cxMod1 ++ encodeSec (.custom pdName [9]))
        = some ([.other 7 [1, 2]] ++ [.custom pdName [9]]) :=
  claimC2 cxMod1 [.other 7 [1, 2]] pdName [9] (by decide)

set_option maxRecDepth 8000 in
/-- Claim C3: with exactly one world in the tree, world and function lookup
fall back to that world when the looked-up name does not match; in
particular the scenario rendering declaring `world other` is annotated with
w1's documentation. -/
theorem claimC3 (docs : Json) (wn : Chars) (w : Json) (name fn : Chars)
    (hw : docs.get kWorlds = some (.obj [(wn, w)])) (hne : wn ≠ name) :
    get_world_docs docs name = (w.get kDocs).bind Json.asStr
    ∧ get_function_docs docs name fn = get_function_docs_from_world w fn
    ∧ inject_docs_into_wit c3text c3docs = c3expected := by
  refine ⟨get_world_docs_single docs wn w name hw hne,
    get_function_docs_single docs wn w name fn hw hne, ?_⟩
  rfl

theorem claimC3_witness :
    get_world_docs c3docs ("other".data) = (c3world.get kDocs).bind Json.asStr
    ∧ get_function_docs c3docs ("other".data) ("foo".data)
        = get_function_docs_from_world c3world ("foo".data)
    ∧ inject_docs_into_wit c3text c3docs = c3expected :=
  claimC3 c3docs ("w1".data) c3world ("other".data) ("foo".data) (by rfl) (by decide)

/-- Claim C4: with two or more worlds in the tree and a rendering none of
whose world declarations names a world of the tree, the injector inserts no
documentation and reproduces the lines unchanged. -/
theorem claimC4 (docs : Json) (worlds : List (Chars × Json)) (text : Chars)
    (hw : docs.get kWorlds = some (.obj worlds))
    (h2 : 2 ≤ worlds.length)
    (hmatch : ∀ l ∈ rustLines text, kWorldKw.isPrefixOf (trimChars l) →
        lookupField worlds (extract_world_name (trimChars l)) = none) :
    injectGo docs none (rustLines text) = rustLines text
    ∧ inject_docs_into_wit text docs
        = ((rustLines text).map (fun l => l ++ ['\n'])).flatten := by
  have h := inject_no_docs docs worlds hw h2 (rustLines text) none hmatch (Or.inl rfl)
  refine ⟨h, ?_⟩
  unfold inject_docs_into_wit
  rw [h]

theorem claimC4_witness :
    injectGo c4docs none (rustLines c4text) = rustLines c4text
    ∧ inject_docs_into_wit c4text c4docs
        = ((rustLines c4text).map (fun l => l ++ ['\n'])).flatten :=
  claimC4 c4docs [("a".data, .obj []), ("b".data, .obj [])] c4text (by rfl)
    (by decide)
    (by
      intro l hl hw
      rcases List.mem_cons.mp hl with rfl | hl2
      · rfl
      rcases List.mem_cons.mp hl2 with rfl | hl3
      · rfl
      rcases List.mem_cons.mp hl3 with rfl | hl4
      · rfl
      · exact absurd hl4 (by simp))

/-- Claim C5: a scan over sections all of whose "package-docs" payloads are
at most one byte long yields "no documentation" without error, and a decode
error can arise only from a "package-docs" payload longer than one byte
whose remainder is not valid JSON. -/
theorem claimC5 (ss : List Sec) :
    ((∀ name data, Sec.custom name data ∈ ss → name = pdName → data.length ≤ 1) →
      extractFromSecs ss = .ok none)
    ∧ (∀ e, extractFromSecs ss = .error e →
        ∃ pre d post, ss = pre ++ .custom pdName d :: post ∧ d.length > 1
          ∧ jsonDecode ((d.drop 1).map Char.ofNat) = none) :=
  ⟨extractFromSecs_all_short ss, fun e he => extractFromSecs_error ss e he⟩

theorem claimC5_witness :
    extractFromSecs [.custom pdName [0], .other 7 [1]] = .ok none :=
  (claimC5 [.custom pdName [0], .other 7 [1]]).1 (by
    intro name data hmem hname
    rcases List.mem_cons.mp hmem with h | h
    · injection h with h1 h2
      subst h2
      decide
    · rcases List.mem_cons.mp h with h2 | h2
      · simp at h2
      · exact absurd h2 (by simp))

/-- Claim C6 (amended): the scan uses the first "package-docs" section whose
payload is longer than one byte; sections before it (including
"package-docs" sections with short payloads) are skipped, and everything
after it is never read. -/
theorem claimC6 (pre post : List Sec) (d : List Nat)
    (hpre : ∀ s ∈ pre, isLongPD s = false) (hd : d.length > 1) :
    extractFromSecs (pre ++ .custom pdName d :: post)
      = match jsonDecode ((d.drop 1).map Char.ofNat) with
        | some j => .ok (some j)
        | none => .error ("Failed to parse package-docs JSON".data) := by
  rw [extractFromSecs_skip pre _ hpre]
  exact extractFromSecs_pd_long d post hd

theorem claimC6_witness :
    extractFromSecs ([.other 7 [1]]
        ++ .custom pdName (metaEncode cxTreeB) :: [.custom pdName [0]])
      = match jsonDecode (((metaEncode cxTreeB).drop 1).map Char.ofNat) with
        | some j => .ok (some j)
        | none => .error ("Failed to parse package-docs JSON".data) :=
  claimC6 [.other 7 [1]] [.custom pdName [0]] (metaEncode cxTreeB) (by decide) (by decide)

set_option maxRecDepth 8000 in
/-- Counterexample to claim C6 as stated: in a module whose first
"package-docs" section has a one-byte payload, the later duplicate is read
and its tree surfaces, although that first section alone carries no
documentation. -/
theorem claimC6_counterexample :
    extract_package_docs cxModDup = .ok (some cxTreeB.toJson)
    ∧ extract_package_docs (encodeModule [.custom pdName [0]]) = .ok none := by
  exact ⟨rfl, rfl⟩

/-- Claim C7: function lookup reads `func_exports` and ignores `functions`
when both are present, and a world exposing the map under the legacy
`functions` key alone resolves exactly as one using `func_exports`. -/
theorem claimC7 (ve vf v : Json) (fn : Chars) :
    get_function_docs_from_world (.obj [(kFuncExports, ve), (kFunctions, vf)]) fn
      = get_function_docs_from_world (.obj [(kFuncExports, ve)]) fn
    ∧ get_function_docs_from_world (.obj [(kFunctions, v)]) fn
      = get_function_docs_from_world (.obj [(kFuncExports, v)]) fn :=
  ⟨rfl, rfl⟩

/-- Claim C8: when a body line resolves function documentation, the inserted
comment lines carry exactly the line's leading whitespace and sit
immediately before the unmodified line. -/
theorem claimC8 (docs : Json) (w line : Chars) (rest : List Chars) (fn fd : Chars)
    (hexp : kExportKw.isPrefixOf (trimChars line) = true
      ∨ kImportKw.isPrefixOf (trimChars line) = true)
    (hfn : extract_function_name (trimChars line) = some fn)
    (hfd : get_function_docs docs w fn = some fd) :
    injectGo docs (some w) (line :: rest)
      = (rustLines fd).map (fun dl => get_indent line ++ kDocMark ++ dl)
        ++ line :: injectGo docs (some w) rest
    ∧ get_indent line ++ line.dropWhile isWs = line
    ∧ ∀ c ∈ get_indent line, isWs c = true := by
  refine ⟨inject_body_docstep docs w line rest fn fd hexp hfn hfd, ?_,
    get_indent_ws line⟩
  exact List.takeWhile_append_dropWhile isWs line

theorem claimC8_witness :
    injectGo c3docs (some ("w1".data)) ["  export foo: func();".data]
      = (rustLines ("Runs foo.".data)).map
          (fun dl => get_indent ("  export foo: func();".data) ++ kDocMark ++ dl)
        ++ "  export foo: func();".data :: injectGo c3docs (some ("w1".data)) []
    ∧ get_indent ("  export foo: func();".data)
        ++ ("  export foo: func();".data).dropWhile isWs = "  export foo: func();".data
    ∧ ∀ c ∈ get_indent ("  export foo: func();".data), isWs c = true :=
  claimC8 c3docs ("w1".data) ("  export foo: func();".data) [] ("foo".data)
    ("Runs foo.".data) (Or.inl (by decide)) (by decide) (by decide)

/-- Claim C9 (amended): with no output path and no in-place flag, the output
file name is the input's stem followed by ".docs.wasm" — the original
extension is replaced by "wasm", which coincides with inserting ".docs"
before the extension exactly when that extension is "wasm" — and the
alternate suffix ".docs.injected.wasm" guarantees the output name never
collides with the input name. -/
theorem claimC9 (s e : Chars) (hs : s ≠ []) (hdot : ∀ x ∈ e, x ≠ '.') (he : e ≠ []) :
    derivedOutName (s ++ '.' :: e) = s ++ ".docs.wasm".data
    ∧ (e = "wasm".data → derivedOutName (s ++ '.' :: e) = s ++ ".docs.".data ++ e)
    ∧ (∀ f, derivedOutName f ≠ f) := by
  have h1 := derivedOutName_ext s e hs hdot he
  refine ⟨h1, ?_, fun f => derivedOutName_ne f⟩
  intro hew
  rw [h1, hew, List.append_assoc]
  exact congrArg (s ++ ·) (by decide)

theorem claimC9_witness :
    derivedOutName ("app".data ++ '.' :: "wasm".data) = "app".data ++ ".docs.wasm".data
    ∧ ("wasm".data = "wasm".data →
        derivedOutName ("app".data ++ '.' :: "wasm".data)
          = "app".data ++ ".docs.".data ++ "wasm".data)
    ∧ (∀ f, derivedOutName f ≠ f) :=
  claimC9 ("app".data) ("wasm".data) (by decide) (by decide) (by decide)

/-- Counterexample to claim C9 as stated: for an input whose extension is
not "wasm", the code does not insert ".docs" before the original extension
but replaces the extension altogether. -/
theorem claimC9_counterexample :
    derivedOutName ("app.component".data) = "app.docs.wasm".data
    ∧ specInsertDocs ("app.component".data) = "app.docs.component".data
    ∧ derivedOutName ("app.component".data) ≠ specInsertDocs ("app.component".data) :=
  ⟨by decide, by decide, by decide⟩

/-- Claim C10: the injector's output contains every input line unmodified and
in order, every other emitted line is a documentation comment line, and for
a nonempty rendering the emitted text ends with a newline (so every emitted
line, the last included, is newline-terminated). -/
theorem claimC10 (docs : Json) (st : Option Chars) (lines : List Chars) (text : Chars) :
    lines.Sublist (injectGo docs st lines)
    ∧ (∀ l ∈ injectGo docs st lines, l ∈ lines ∨ isDocCommentLine l)
    ∧ (rustLines text ≠ [] → ∃ s, inject_docs_into_wit text docs = s ++ ['\n']) := by
  obtain ⟨h1, h2⟩ := injectGo_lines docs lines st
  refine ⟨h1, h2, ?_⟩
  intro hne
  unfold inject_docs_into_wit
  apply flatten_newline
  cases hr : rustLines text with
  | nil => exact absurd hr hne
  | cons l rest => exact injectGo_ne_nil docs none l rest

theorem claimC10_witness :
    (["world a \x7b".data] : List Chars).Sublist
        (injectGo c3docs none ["world a \x7b".data])
    ∧ (∀ l ∈ injectGo c3docs none ["world a \x7b".data],
        l ∈ (["world a \x7b".data] : List Chars) ∨ isDocCommentLine l)
    ∧ ∃ s, inject_docs_into_wit c3text c3docs = s ++ ['\n'] := by
  obtain ⟨h1, h2, h3⟩ := claimC10 c3docs none ["world a \x7b".data] c3text
  exact ⟨h1, h2, h3 (by decide)⟩

example : rustLines "a\nb\n".data = ["a".data, "b".data] := by decide
example : rustLines "a\n\nb".data = ["a".data, [], "b".data] := by decide
example : rustLines [] = [] := by decide
example : trimChars "  x y ".data = "x y".data := by decide
example : splitWs "  export  foo".data = ["export".data, "foo".data] := by decide
example : extract_world_name (trimChars "  world app \x7b".data) = "app".data := by decide
example : extract_function_name "export foo: func();".data = some "foo".data := by decide
example : extract_function_name "export foo()".data = none := by decide
example : get_indent "  export".data = "  ".data := by decide
